import Mathlib

/-!
Verification development for the throttling scheduler of `src/adaptors/throttle.rs`.

The worker and the request-future state machine are shallowly embedded:

* `Limits` mirrors the Rust struct `Limits` (u32 fields; counts in this
  development stay far below 2^32, so they are modelled as `Nat`).
* `ChatIdHash` mirrors the Rust enum (`Id(i64)` / `ChannelUsernameHash(u64)`);
  the payloads are modelled as `Int` / `Nat`.
* The two `HashMap<ChatIdHash, RequestsSent>` maps (`per_min`, `per_sec`) are
  modelled as association lists with unique keys (`CountMap`); a missing key
  reads as count 0, matching `get(chat).copied().unwrap_or(0)`.
* `Instant` timestamps are integers (milliseconds); `MINUTE = 60000`,
  `SECOND = 1000`.  The history `VecDeque` is a list whose head is the deque
  front (the oldest record); `push_back` appends at the list tail.
* The oneshot `Sender<Never>` of a queue entry is represented by a request
  identifier (`Nat`); "closing the sender" = emitting that identifier in the
  admitted output list.
-/

/-- Mirrors `struct Limits` (throttle.rs lines 87-96). -/
structure Limits where
  messages_per_sec_chat : Nat
  messages_per_min_chat : Nat
  messages_per_sec_overall : Nat
deriving DecidableEq, Repr

/-- Mirrors `impl Default for Limits` (lines 101-109). -/
def Limits.default : Limits :=
  { messages_per_sec_chat := 1
    messages_per_sec_overall := 30
    messages_per_min_chat := 20 }

/-- Mirrors `enum ChatIdHash` (lines 489-493). -/
inductive ChatIdHash where
  | Id : Int → ChatIdHash
  | ChannelUsernameHash : Nat → ChatIdHash
deriving DecidableEq, Repr

/-- One minute, in model time units (milliseconds); `MINUTE` (line 69). -/
def MINUTE : Int := 60000

/-- One second, in model time units (milliseconds); `SECOND` (line 70). -/
def SECOND : Int := 1000

/-- A `HashMap<ChatIdHash, RequestsSent>` as an association list with
unique keys. -/
abbrev CountMap := List (ChatIdHash × Nat)

/-- A queue entry `(ChatIdHash, Sender<Never>)`: the sender is represented by
the request identifier. -/
abbrev QEntry := ChatIdHash × Nat

/-- A history record `(ChatIdHash, Instant)` (line 174). -/
abbrev HRecord := ChatIdHash × Int

/-- Map lookup (`HashMap::get`). -/
def lookupCount : CountMap → ChatIdHash → Option Nat
  | [], _ => none
  | (k, c) :: rest, key => if k = key then some c else lookupCount rest key

/-- `requests_sent.per_sec.get(chat).copied().unwrap_or(0)` (line 261). -/
def getCount (m : CountMap) (key : ChatIdHash) : Nat :=
  (lookupCount m key).getD 0

/-- `*map.entry(*chat).or_insert(0) += 1` (lines 254, 266, 267). -/
def incrCount : CountMap → ChatIdHash → CountMap
  | [], key => [(key, 1)]
  | (k, c) :: rest, key =>
      if k = key then (k, c + 1) :: rest else (k, c) :: incrCount rest key

/-- The per-minute decrement of the trim loop (lines 227-235):
`entry(chat).and_modify(|count| *count -= 1)` followed by removing the entry
when its count reached zero.  If the key is absent (`Entry::Vacant`) nothing
happens.  The `u32` decrement cannot underflow in reachable states (the
per-minute map counts exactly the records of the history, see `MinuteExact`);
`Nat` subtraction saturates at the same place a debug build would panic. -/
def decCount : CountMap → ChatIdHash → CountMap
  | [], _ => []
  | (k, c) :: rest, key =>
      if k = key then (if c - 1 = 0 then rest else (k, c - 1) :: rest)
      else (k, c) :: decCount rest key

/-- The trim loop (lines 220-237): pop history records from the front while
their time is `< min_back`, decrementing the per-minute map for each popped
record.  Returns the trimmed history and the updated per-minute map. -/
def trim (minBack : Int) : List HRecord → CountMap → List HRecord × CountMap
  | [], perMin => ([], perMin)
  | (chat, time) :: rest, perMin =>
      if minBack ≤ time then ((chat, time) :: rest, perMin)
      else trim minBack rest (decCount perMin chat)

/-- `history.iter().take_while(|(_, time)| time > &sec_back).count()`
(lines 241-244).  `iter()` walks the deque from the front, i.e. from the
OLDEST record. -/
def usedCount (secBack : Int) (history : List HRecord) : Nat :=
  (history.takeWhile (fun r => decide (secBack < r.2))).length

/-- What the specification asks of step 4: the number of ALL records of `H`
with timestamp strictly greater than `sec_back`. -/
def usedCountSpec (secBack : Int) (history : List HRecord) : Nat :=
  (history.filter (fun r => decide (secBack < r.2))).length

/-- The Build-S step (lines 253-255): populate `requests_sent.per_sec`
(empty at this point: it is cleared at the end of every iteration) from
`history.iter().take_while(|(_, time)| time > &sec_back)`. -/
def buildPerSec (secBack : Int) (history : List HRecord) : CountMap :=
  (history.takeWhile (fun r => decide (secBack < r.2))).foldl
    (fun m r => incrCount m r.1) []

/-- What the specification asks of the Build-S step: `S` populated from the
suffix of `H` within the last second (all records with time `> sec_back`). -/
def buildPerSecSpec (secBack : Int) (history : List HRecord) : CountMap :=
  (history.filter (fun r => decide (secBack < r.2))).foldl
    (fun m r => incrCount m r.1) []

/-- The eligibility test of the admit walk (lines 260-263): the per-SECOND
count of the chat is compared against both `messages_per_sec_chat` and
`messages_per_min_chat`; the per-minute map is not consulted. -/
def limits_not_exceeded (L : Limits) (perSec : CountMap) (chat : ChatIdHash) : Bool :=
  let requests_sent_count := getCount perSec chat
  decide (requests_sent_count < L.messages_per_sec_chat) &&
    decide (requests_sent_count < L.messages_per_min_chat)

/-- The eligibility condition as the specification states it:
`S[K] < L.per_sec_chat` AND `M[K] < L.per_min_chat`. -/
def eligibleSpec (L : Limits) (perSec perMin : CountMap) (chat : ChatIdHash) : Bool :=
  decide (getCount perSec chat < L.messages_per_sec_chat) &&
    decide (getCount perMin chat < L.messages_per_min_chat)

/-- Result of the admit walk over the backlog. -/
structure WalkResult where
  remaining : List QEntry
  admitted : List QEntry
  perSec : CountMap
  perMin : CountMap
  history : List HRecord
  allowed : Nat
deriving Repr

/-- The admit walk (lines 257-279): scan the backlog front to back with a
removing cursor; an eligible entry increments both tallies, appends a record
to the history, is removed and signalled, and decrements `allowed`
(breaking at 0); an ineligible entry stays in place.  The `Instant::now()`
re-sampled at each push (line 268) is modelled by the iteration instant
`now` (the difference is below the clock granularity of this discrete-time
model). -/
def admitWalk (L : Limits) (now : Int) (perSec perMin : CountMap)
    (history : List HRecord) (allowed : Nat) :
    List QEntry → WalkResult
  | [] => ⟨[], [], perSec, perMin, history, allowed⟩
  | (chat, id) :: rest =>
      if limits_not_exceeded L perSec chat then
        let perSec' := incrCount perSec chat
        let perMin' := incrCount perMin chat
        let history' := history ++ [(chat, now)]
        let allowed' := allowed - 1
        if allowed' = 0 then
          ⟨rest, [(chat, id)], perSec', perMin', history', 0⟩
        else
          let w := admitWalk L now perSec' perMin' history' allowed' rest
          ⟨w.remaining, (chat, id) :: w.admitted, w.perSec, w.perMin,
            w.history, w.allowed⟩
      else
        let w := admitWalk L now perSec perMin history allowed rest
        ⟨(chat, id) :: w.remaining, w.admitted, w.perSec, w.perMin,
          w.history, w.allowed⟩

/-- The scheduling state owned by the worker: backlog, history, per-minute
map (lines 171-175).  `per_sec` is not part of the persistent state: it is
cleared on every path before being rebuilt. -/
structure WorkerState where
  queue : List QEntry
  history : List HRecord
  perMin : CountMap
deriving Repr

/-- The initial worker state (lines 171-175). -/
def initialState : WorkerState :=
  ⟨[], [], []⟩

/-- One body iteration of the worker loop (lines 180-284), started at
instant `now` with `arrivals` freshly drained from the channel: append the
arrivals, trim history and per-minute map, compute the global budget, and —
unless the budget is 0 — build the per-second map and run the admit walk.
Returns the next state and the signalled (admitted) entries in order. -/
def iterate (L : Limits) (now : Int) (arrivals : List QEntry)
    (st : WorkerState) : WorkerState × List QEntry :=
  let queue := st.queue ++ arrivals
  let minBack := now - MINUTE
  let secBack := now - SECOND
  let tm := trim minBack st.history st.perMin
  let history := tm.1
  let perMin := tm.2
  let used := usedCount secBack history
  let allowed := L.messages_per_sec_overall - used
  if allowed = 0 then
    (⟨queue, history, perMin⟩, [])
  else
    let perSec := buildPerSec secBack history
    let w := admitWalk L now perSec perMin history allowed queue
    (⟨w.remaining, w.history, w.perMin⟩, w.admitted)

/-- A run of worker iterations.  Each event is `(now, arrivals)`; the output
collects the signalled admissions tagged with the instant of the iteration
that signalled them. -/
def run (L : Limits) : List (Int × List QEntry) → WorkerState →
    WorkerState × List (Int × QEntry)
  | [], st => (st, [])
  | (now, arrivals) :: rest, st =>
      let step := iterate L now arrivals st
      let tail := run L rest step.1
      (tail.1, step.2.map (fun e => (now, e)) ++ tail.2)

/-- The worker's full loop state, including the `rx_is_closed` flag
(line 177). -/
structure LoopState where
  queue : List QEntry
  history : List HRecord
  perMin : CountMap
  rxClosed : Bool
deriving Repr

/-- The worker loop guard `!rx_is_closed || !queue.is_empty()` (line 179). -/
def loopGuard (st : LoopState) : Bool :=
  !st.rxClosed || !st.queue.isEmpty

/-- `read_from_rx` (lines 288-309): the drained channel items are pushed to
the back of the backlog in arrival order, and `rx_is_closed` is set when the
channel is observed closed.  `arrivals` is what the channel yields during
this call and `sawClosed` whether a `None` was observed. -/
def read_from_rx (arrivals : List QEntry) (sawClosed : Bool)
    (queue : List QEntry) (rxClosed : Bool) : List QEntry × Bool :=
  (queue ++ arrivals, rxClosed || sawClosed)

/-- One guarded pass of the worker loop (lines 179-285): if the guard holds,
read from the channel and run the iteration body, returning `some` next
state with the signalled admissions; if the guard fails, the worker returns
(`none`). -/
def guardedStep (L : Limits) (now : Int) (arrivals : List QEntry)
    (sawClosed : Bool) (st : LoopState) :
    Option (LoopState × List QEntry) :=
  if loopGuard st then
    let (queue, rxClosed) := read_from_rx arrivals sawClosed st.queue st.rxClosed
    let (st', adm) := iterate L now [] ⟨queue, st.history, st.perMin⟩
    some (⟨st'.queue, st'.history, st'.perMin, rxClosed⟩, adm)
  else
    none

/-! ### The request-future state machines

`ThrottlingSend<R>` and `ThrottlingSendRef<R>` (lines 566-737) are two
verbatim-identical four-state machines; both are embedded, mirroring the
duplication of the source.  A single Rust `poll` call may traverse several
states because after a `project_replace` it tail-calls `self.poll(cx)`
(lines 622, 640, 709, 726); within one call each inner future is polled at
most once, so the outcomes of `send.poll`, `wait.poll` and `fut.poll` are
supplied as oracles fixed for the call. -/

/-- Outcome of polling the bounded-channel send future `ChanSend`: still
pending, `Ok(())`, or `Err(SendError)` (channel closed, worker gone). -/
inductive ChanPoll where
  | stillPending
  | ok
  | closed
deriving DecidableEq, Repr

/-- Outcome of polling the oneshot `Receiver<Never>`: still pending, or
ready (necessarily `Err(RecvError)`, since `Never` is uninhabited — the
sender was dropped, which IS the admission signal). -/
inductive WaitPoll where
  | stillPending
  | ready
deriving DecidableEq, Repr

/-- Outcome of polling the underlying HTTP future, with result type `ρ`
(`Result<Output<R>, R::Err>`). -/
inductive FutPoll (ρ : Type) where
  | stillPending
  | ready (r : ρ)
deriving DecidableEq, Repr

/-- What one `poll` call of the throttling future returns. -/
inductive PollOut (ρ : Type) where
  | stillPending
  | ready (r : ρ)
deriving DecidableEq, Repr

/-- The four states of `ThrottlingSendInner<R>` (lines 570-587).  Each state
owns its data (request / send / wait / fut); only the tag is relevant to the
transition structure, the owned futures being polled through the oracles. -/
inductive ThrottlingSendInner where
  | Registering
  | Pending
  | Sent
  | Done
deriving DecidableEq, Repr

/-- The `SendProj::Sent` arm (lines 643-647): poll `fut`; on readiness set
the state to `Done` and return the result unchanged. -/
def pollFromSent (fut : FutPoll ρ) : ThrottlingSendInner × PollOut ρ :=
  match fut with
  | .stillPending => (.Sent, .stillPending)
  | .ready r => (.Done, .ready r)

/-- The `SendProj::Pending` arm (lines 625-642): poll `wait`; on closure
replace the state by `Sent { fut: request.send() }` and re-poll. -/
def pollFromPending (wait : WaitPoll) (fut : FutPoll ρ) :
    ThrottlingSendInner × PollOut ρ :=
  match wait with
  | .stillPending => (.Pending, .stillPending)
  | .ready => pollFromSent fut

/-- One `poll` call of `ThrottlingSend<R>` (lines 592-650). -/
def ThrottlingSend.poll (st : ThrottlingSendInner) (send : ChanPoll)
    (wait : WaitPoll) (fut : FutPoll ρ) : ThrottlingSendInner × PollOut ρ :=
  match st with
  | .Registering =>
      match send with
      | .stillPending => (.Registering, .stillPending)
      | .ok => pollFromPending wait fut
      | .closed => pollFromSent fut
  | .Pending => pollFromPending wait fut
  | .Sent => pollFromSent fut
  | .Done => (.Done, .stillPending)

/-- The four states of `ThrottlingSendRefInner<R>` (lines 657-674). -/
inductive ThrottlingSendRefInner where
  | Registering
  | Pending
  | Sent
  | Done
deriving DecidableEq, Repr

/-- The `SendRefProj::Sent` arm (lines 729-733). -/
def pollRefFromSent (fut : FutPoll ρ) : ThrottlingSendRefInner × PollOut ρ :=
  match fut with
  | .stillPending => (.Sent, .stillPending)
  | .ready r => (.Done, .ready r)

/-- The `SendRefProj::Pending` arm (lines 712-728). -/
def pollRefFromPending (wait : WaitPoll) (fut : FutPoll ρ) :
    ThrottlingSendRefInner × PollOut ρ :=
  match wait with
  | .stillPending => (.Pending, .stillPending)
  | .ready => pollRefFromSent fut

/-- One `poll` call of `ThrottlingSendRef<R>` (lines 679-737). -/
def ThrottlingSendRef.poll (st : ThrottlingSendRefInner) (send : ChanPoll)
    (wait : WaitPoll) (fut : FutPoll ρ) :
    ThrottlingSendRefInner × PollOut ρ :=
  match st with
  | .Registering =>
      match send with
      | .stillPending => (.Registering, .stillPending)
      | .ok => pollRefFromPending wait fut
      | .closed => pollRefFromSent fut
  | .Pending => pollRefFromPending wait fut
  | .Sent => pollRefFromSent fut
  | .Done => (.Done, .stillPending)

/-- Sum of the counts stored in a map (the `sum(M.values())` of the
specification). -/
def sumCounts (m : CountMap) : Nat :=
  (m.map Prod.snd).sum

/-- The per-minute map is exact over the history: its keys are unique (it
models a `HashMap`), the count read for every key equals the number of
history records with that key, and every stored count is strictly positive
(entries reaching zero are removed). -/
def MinuteExact (perMin : CountMap) (history : List HRecord) : Prop :=
  (perMin.map Prod.fst).Nodup ∧
    (∀ k, getCount perMin k = (history.filter (fun r => decide (r.1 = k))).length) ∧
    (∀ p ∈ perMin, 0 < p.2)

/-! ## Association-list map lemmas -/

theorem getCount_nil (k : ChatIdHash) : getCount [] k = 0 :=
  rfl

theorem getCount_cons (k0 : ChatIdHash) (c0 : Nat) (rest : CountMap)
    (k : ChatIdHash) :
    getCount ((k0, c0) :: rest) k = if k0 = k then c0 else getCount rest k := by
  by_cases h : k0 = k <;> simp [getCount, lookupCount, h]

theorem lookupCount_eq_none (m : CountMap) (k : ChatIdHash)
    (h : k ∉ m.map Prod.fst) : lookupCount m k = none := by
  induction m with
  | nil => rfl
  | cons p rest ih =>
      obtain ⟨k0, c0⟩ := p
      rw [List.map_cons, List.mem_cons, not_or] at h
      simp only [lookupCount, if_neg (fun hk : k0 = k => h.1 hk.symm)]
      exact ih h.2

theorem getCount_eq_zero_of_not_mem (m : CountMap) (k : ChatIdHash)
    (h : k ∉ m.map Prod.fst) : getCount m k = 0 := by
  rw [getCount, lookupCount_eq_none m k h]
  rfl

theorem getCount_incrCount (m : CountMap) (c k : ChatIdHash) :
    getCount (incrCount m c) k =
      if k = c then getCount m c + 1 else getCount m k := by
  induction m with
  | nil =>
      by_cases hk : k = c
      · subst hk
        simp [incrCount, getCount_cons, getCount_nil]
      · have hk' : ¬ c = k := fun h => hk h.symm
        simp [incrCount, getCount_cons, getCount_nil, hk, hk']
  | cons p rest ih =>
      obtain ⟨k0, c0⟩ := p
      by_cases h0 : k0 = c
      · subst h0
        by_cases hk : k0 = k
        · subst hk
          simp [incrCount, getCount_cons]
        · have hk' : ¬ k = k0 := fun h => hk h.symm
          simp [incrCount, getCount_cons, hk, hk']
      · by_cases hk : k0 = k
        · subst hk
          have h0' : ¬ k0 = c := h0
          simp [incrCount, getCount_cons, h0, h0']
        · have hk' : ¬ k = k0 := fun h => hk h.symm
          simp [incrCount, getCount_cons, h0, hk, hk', ih]

theorem mem_keys_incrCount (m : CountMap) (c k : ChatIdHash)
    (h : k ∈ (incrCount m c).map Prod.fst) :
    k ∈ m.map Prod.fst ∨ k = c := by
  induction m with
  | nil =>
      rw [incrCount, List.map_cons, List.mem_cons] at h
      rcases h with h | h
      · exact Or.inr h
      · cases h
  | cons p rest ih =>
      obtain ⟨k0, c0⟩ := p
      rw [List.map_cons, List.mem_cons]
      by_cases h0 : k0 = c
      · rw [incrCount, if_pos h0, List.map_cons, List.mem_cons] at h
        rcases h with h | h
        · exact Or.inl (Or.inl h)
        · exact Or.inl (Or.inr h)
      · rw [incrCount, if_neg h0, List.map_cons, List.mem_cons] at h
        rcases h with h | h
        · exact Or.inl (Or.inl h)
        · exact (ih h).imp Or.inr id

theorem nodup_keys_incrCount (m : CountMap) (c : ChatIdHash)
    (h : (m.map Prod.fst).Nodup) : ((incrCount m c).map Prod.fst).Nodup := by
  induction m with
  | nil => simp [incrCount]
  | cons p rest ih =>
      obtain ⟨k0, c0⟩ := p
      rw [List.map_cons, List.nodup_cons] at h
      by_cases h0 : k0 = c
      · rw [incrCount, if_pos h0, List.map_cons, List.nodup_cons]
        exact h
      · rw [incrCount, if_neg h0, List.map_cons, List.nodup_cons]
        refine ⟨fun hmem => ?_, ih h.2⟩
        rcases mem_keys_incrCount rest c k0 hmem with h' | h'
        · exact h.1 h'
        · exact h0 h'

theorem pos_incrCount (m : CountMap) (c : ChatIdHash)
    (h : ∀ p ∈ m, 0 < p.2) : ∀ p ∈ incrCount m c, 0 < p.2 := by
  induction m with
  | nil =>
      intro p hp
      rw [incrCount, List.mem_cons] at hp
      rcases hp with hp | hp
      · subst hp; exact Nat.one_pos
      · cases hp
  | cons q rest ih =>
      obtain ⟨k0, c0⟩ := q
      intro p hp
      by_cases h0 : k0 = c
      · rw [incrCount, if_pos h0, List.mem_cons] at hp
        rcases hp with hp | hp
        · subst hp; exact Nat.succ_pos c0
        · exact h p (List.mem_cons_of_mem _ hp)
      · rw [incrCount, if_neg h0, List.mem_cons] at hp
        rcases hp with hp | hp
        · subst hp; exact h (k0, c0) (List.mem_cons_self _ _)
        · exact ih (fun q hq => h q (List.mem_cons_of_mem _ hq)) p hp

theorem mem_keys_decCount (m : CountMap) (c k : ChatIdHash)
    (h : k ∈ (decCount m c).map Prod.fst) : k ∈ m.map Prod.fst := by
  induction m with
  | nil => exact h
  | cons p rest ih =>
      obtain ⟨k0, c0⟩ := p
      rw [List.map_cons, List.mem_cons]
      by_cases h0 : k0 = c
      · rw [decCount, if_pos h0] at h
        by_cases hz : c0 - 1 = 0
        · rw [if_pos hz] at h
          exact Or.inr h
        · rw [if_neg hz, List.map_cons, List.mem_cons] at h
          exact h
      · rw [decCount, if_neg h0, List.map_cons, List.mem_cons] at h
        exact h.imp id ih

theorem nodup_keys_decCount (m : CountMap) (c : ChatIdHash)
    (h : (m.map Prod.fst).Nodup) : ((decCount m c).map Prod.fst).Nodup := by
  induction m with
  | nil => exact h
  | cons p rest ih =>
      obtain ⟨k0, c0⟩ := p
      rw [List.map_cons, List.nodup_cons] at h
      by_cases h0 : k0 = c
      · rw [decCount, if_pos h0]
        by_cases hz : c0 - 1 = 0
        · rw [if_pos hz]; exact h.2
        · rw [if_neg hz, List.map_cons, List.nodup_cons]
          exact h
      · rw [decCount, if_neg h0, List.map_cons, List.nodup_cons]
        exact ⟨fun hmem => h.1 (mem_keys_decCount rest c k0 hmem), ih h.2⟩

theorem pos_decCount (m : CountMap) (c : ChatIdHash)
    (h : ∀ p ∈ m, 0 < p.2) : ∀ p ∈ decCount m c, 0 < p.2 := by
  induction m with
  | nil => exact h
  | cons q rest ih =>
      obtain ⟨k0, c0⟩ := q
      intro p hp
      by_cases h0 : k0 = c
      · rw [decCount, if_pos h0] at hp
        by_cases hz : c0 - 1 = 0
        · rw [if_pos hz] at hp
          exact h p (List.mem_cons_of_mem _ hp)
        · rw [if_neg hz, List.mem_cons] at hp
          rcases hp with hp | hp
          · subst hp
            exact Nat.pos_of_ne_zero hz
          · exact h p (List.mem_cons_of_mem _ hp)
      · rw [decCount, if_neg h0, List.mem_cons] at hp
        rcases hp with hp | hp
        · subst hp; exact h (k0, c0) (List.mem_cons_self _ _)
        · exact ih (fun q hq => h q (List.mem_cons_of_mem _ hq)) p hp

theorem getCount_decCount (m : CountMap) (c k : ChatIdHash)
    (hnd : (m.map Prod.fst).Nodup) :
    getCount (decCount m c) k =
      if k = c then getCount m c - 1 else getCount m k := by
  induction m with
  | nil =>
      by_cases hk : k = c <;> simp [decCount, getCount_nil, hk]
  | cons p rest ih =>
      obtain ⟨k0, c0⟩ := p
      rw [List.map_cons, List.nodup_cons] at hnd
      by_cases h0 : k0 = c
      · subst h0
        by_cases hk : k0 = k
        · subst hk
          by_cases hz : c0 - 1 = 0
          · simp [decCount, hz, getCount_cons,
              getCount_eq_zero_of_not_mem rest k0 hnd.1]
          · simp [decCount, hz, getCount_cons]
        · have hk' : ¬ k = k0 := fun h => hk h.symm
          by_cases hz : c0 - 1 = 0
          · simp [decCount, hz, getCount_cons, hk, hk']
          · simp [decCount, hz, getCount_cons, hk, hk']
      · by_cases hk : k0 = k
        · subst hk
          have h0' : ¬ k0 = c := h0
          simp [decCount, h0, h0', getCount_cons]
        · have hk' : ¬ k = k0 := fun h => hk h.symm
          simp [decCount, h0, hk, hk', getCount_cons, ih hnd.2]

theorem length_filter_split {α : Type} (p : α → Bool) (l : List α) :
    (l.filter p).length + (l.filter (fun a => !p a)).length = l.length := by
  induction l with
  | nil => rfl
  | cons a rest ih =>
      by_cases h : p a = true
      · simp [List.filter_cons, h, Nat.succ_add, ← ih]
      · simp [List.filter_cons, h, Nat.succ_add, ← ih]
        omega

/-! ## Claim theorems -/

/-- C1: the specification says a backlog entry with chat key `K` is eligible
iff `S[K] < L.per_sec_chat` AND `M[K] < L.per_min_chat`.  The code
(lines 260-263) compares the per-SECOND tally against BOTH limits and never
reads the per-minute map.  At the reachable state below (limits
`(5, 3, 30)`, three chat-1 records admitted in the current minute, none in
the current second, per-second map freshly built empty) the walk admits a
fourth chat-1 entry, although the specification-side eligibility is false
because `M[K] = 3` is not `< 3`. -/
theorem admit_step_checks_per_sec_against_per_min_limit :
    (admitWalk ⟨5, 3, 30⟩ 1000 [] [(ChatIdHash.Id 1, 3)]
        [(ChatIdHash.Id 1, 0), (ChatIdHash.Id 1, 0), (ChatIdHash.Id 1, 0)] 30
        [(ChatIdHash.Id 1, 4)]).admitted = [(ChatIdHash.Id 1, 4)] ∧
      eligibleSpec ⟨5, 3, 30⟩ [] [(ChatIdHash.Id 1, 3)] (ChatIdHash.Id 1) = false := by
  decide

/-- C2: the specification says `used` is the number of ALL records of `H`
with timestamp `> sec_back`.  The code (lines 241-244) walks the deque from
the FRONT — the oldest end — with `take_while`, so any record older than one
second stops the count before the recent records are seen.  On the
reachable history below (one record 30 s old, two fresh ones), with
`sec_back = 29250`, the code counts 0 while the specification requires 2. -/
theorem used_budget_undercounts_last_second :
    usedCount 29250
        [(ChatIdHash.Id 10, 0), (ChatIdHash.Id 20, 30000), (ChatIdHash.Id 30, 30000)] = 0 ∧
      usedCountSpec 29250
        [(ChatIdHash.Id 10, 0), (ChatIdHash.Id 20, 30000), (ChatIdHash.Id 30, 30000)] = 2 := by
  decide

/-- C3: the specification says `S` is populated from the suffix of `H`
within the last second.  The Build-S loop (lines 253-255) uses the same
front-anchored `take_while` as the budget count, so an old record at the
front hides the entire last-second suffix: on the history below the code
builds an empty map while the specification-side map counts one record each
for chats 20 and 30. -/
theorem build_s_misses_last_second_suffix :
    getCount (buildPerSec 29250
        [(ChatIdHash.Id 10, 0), (ChatIdHash.Id 20, 30000), (ChatIdHash.Id 30, 30000)])
        (ChatIdHash.Id 20) = 0 ∧
      getCount (buildPerSecSpec 29250
        [(ChatIdHash.Id 10, 0), (ChatIdHash.Id 20, 30000), (ChatIdHash.Id 30, 30000)])
        (ChatIdHash.Id 20) = 1 := by
  decide

/-- C4: the per-chat per-minute cap is NOT enforced, because the admit step
never reads the per-minute map (see C1).  With limits `(5, 3, 30)`, four
requests for chat 1 arriving at `t = 0` and the worker iterating on its
250 ms cadence, the worker signals all four within the first second: four
admissions of one chat inside a sixty-second window, exceeding
`per_min_chat = 3`. -/
theorem per_min_chat_cap_violated :
    (run ⟨5, 3, 30⟩
        [(0, [(ChatIdHash.Id 1, 1), (ChatIdHash.Id 1, 2), (ChatIdHash.Id 1, 3),
              (ChatIdHash.Id 1, 4)]),
         (250, []), (500, []), (750, []), (1000, [])] initialState).2 =
      [(0, ChatIdHash.Id 1, 1), (0, ChatIdHash.Id 1, 2), (0, ChatIdHash.Id 1, 3),
       (1000, ChatIdHash.Id 1, 4)] ∧
      ((run ⟨5, 3, 30⟩
          [(0, [(ChatIdHash.Id 1, 1), (ChatIdHash.Id 1, 2), (ChatIdHash.Id 1, 3),
                (ChatIdHash.Id 1, 4)]),
           (250, []), (500, []), (750, []), (1000, [])] initialState).2.filter
        (fun e => decide (e.2.1 = ChatIdHash.Id 1) && decide (0 ≤ e.1) &&
          decide (e.1 < 60000))).length = 4 ∧
      (Limits.mk 5 3 30).messages_per_min_chat = 3 := by
  decide

/-- C5: the global per-second cap is NOT enforced, because the budget count
misses recent records hidden behind an old front record (see C2).  With
limits `(5, 20, 2)`: chat 10 admitted at `t = 0`; chats 20 and 30 admitted
at `t = 30000` (budget exhausted, chat 40 left in the backlog); at
`t = 30250` the `take_while` stops on the 30-second-old front record, counts
`used = 0`, and admits chat 40 — three admissions inside the one-second
window `(29250, 30250]`, exceeding `per_sec_overall = 2`. -/
theorem per_sec_overall_cap_violated :
    (run ⟨5, 20, 2⟩
        [(0, [(ChatIdHash.Id 10, 1)]),
         (30000, [(ChatIdHash.Id 20, 2), (ChatIdHash.Id 30, 3), (ChatIdHash.Id 40, 4)]),
         (30250, [])] initialState).2 =
      [(0, ChatIdHash.Id 10, 1), (30000, ChatIdHash.Id 20, 2),
       (30000, ChatIdHash.Id 30, 3), (30250, ChatIdHash.Id 40, 4)] ∧
      ((run ⟨5, 20, 2⟩
          [(0, [(ChatIdHash.Id 10, 1)]),
           (30000, [(ChatIdHash.Id 20, 2), (ChatIdHash.Id 30, 3), (ChatIdHash.Id 40, 4)]),
           (30250, [])] initialState).2.filter
        (fun e => decide (29250 < e.1) && decide (e.1 ≤ 30250))).length = 3 ∧
      (Limits.mk 5 20 2).messages_per_sec_overall = 2 := by
  decide

/-- C8: in `Registering`, when the channel send resolves to an error
(channel closed, worker gone), both `ThrottlingSend::poll` (lines 616-618)
and `ThrottlingSendRef::poll` (lines 703-705) replace the state by
`Sent { fut: request.send() }` and immediately re-poll: the call behaves
exactly like a poll of the `Sent` arm — the underlying HTTP future is
dispatched and polled — the resulting state is never `Pending`, and the
outcome is independent of the admission receiver `wait`. -/
theorem registering_send_error_goes_directly_to_sent {ρ : Type}
    (wait : WaitPoll) (fut : FutPoll ρ) :
    ThrottlingSend.poll .Registering .closed wait fut = pollFromSent fut ∧
      (ThrottlingSend.poll .Registering .closed wait fut).1 ≠ .Pending ∧
      ThrottlingSendRef.poll .Registering .closed wait fut = pollRefFromSent fut ∧
      (ThrottlingSendRef.poll .Registering .closed wait fut).1 ≠ .Pending := by
  refine ⟨rfl, ?_, rfl, ?_⟩ <;> cases fut <;>
    simp [ThrottlingSend.poll, ThrottlingSendRef.poll, pollFromSent, pollRefFromSent]

/-- C9: the worker loop guard is `!rx_is_closed || !queue.is_empty()`
(line 179): a further iteration runs (the step yields `some`) exactly when
the channel has not been observed closed or the backlog is non-empty, and
the worker returns (`none`) exactly when the observed-closed flag is set
and the backlog is empty. -/
theorem worker_loop_runs_iff_open_or_backlog (L : Limits) (now : Int)
    (arrivals : List QEntry) (sawClosed : Bool) (st : LoopState) :
    guardedStep L now arrivals sawClosed st = none ↔
      st.rxClosed = true ∧ st.queue = [] := by
  rcases st with ⟨q, h, m, rc⟩
  cases rc <;> cases q <;> simp [guardedStep, loopGuard, read_from_rx]

/-- C10: the `Done` arms (lines 648 and 734) return `Poll::Pending` and
leave the state `Done`, whatever the inner futures would report: polling
after completion never panics (the step function is total), never produces
an error value, and never yields a second result. -/
theorem done_state_poll_returns_pending_forever {ρ : Type} (send : ChanPoll)
    (wait : WaitPoll) (fut : FutPoll ρ) :
    ThrottlingSend.poll .Done send wait fut = (.Done, .stillPending) ∧
      ThrottlingSendRef.poll .Done send wait fut = (.Done, .stillPending) :=
  ⟨rfl, rfl⟩

/-! ## Exactness of the per-minute map over the history (C7) -/

theorem filter_not_key_self (l : List HRecord) (k0 : ChatIdHash) :
    ((l.filter fun r => !decide (r.1 = k0)).filter fun r => decide (r.1 = k0)) = [] := by
  induction l with
  | nil => rfl
  | cons r rest ih =>
      by_cases hr : r.1 = k0 <;> simp [List.filter_cons, hr, ih]

theorem filter_key_of_ne (l : List HRecord) (k0 k : ChatIdHash) (hk : k ≠ k0) :
    ((l.filter fun r => !decide (r.1 = k0)).filter fun r => decide (r.1 = k)) =
      l.filter fun r => decide (r.1 = k) := by
  induction l with
  | nil => rfl
  | cons r rest ih =>
      by_cases hr : r.1 = k0
      · have hrk : ¬ r.1 = k := fun h => hk (h ▸ hr)
        have hk' : ¬ k0 = k := fun h => hk h.symm
        simp [List.filter_cons, hr, hrk, hk', ih]
      · simp [List.filter_cons, hr, ih]

theorem minuteExact_sumCounts (m : CountMap) (h : List HRecord)
    (hm : MinuteExact m h) : sumCounts m = h.length := by
  induction m generalizing h with
  | nil =>
      cases h with
      | nil => rfl
      | cons r hs =>
          exfalso
          have h0 := hm.2.1 r.1
          rw [getCount_nil] at h0
          simp [List.filter_cons] at h0
  | cons p rest ih =>
      obtain ⟨k0, c0⟩ := p
      obtain ⟨hnd, hex, hpos⟩ := hm
      rw [List.map_cons, List.nodup_cons] at hnd
      have hrest : MinuteExact rest (h.filter fun r => !decide (r.1 = k0)) := by
        refine ⟨hnd.2, fun k => ?_, fun p hp => hpos p (List.mem_cons_of_mem _ hp)⟩
        by_cases hk : k = k0
        · subst hk
          rw [getCount_eq_zero_of_not_mem rest k hnd.1, filter_not_key_self]
          rfl
        · rw [filter_key_of_ne h k0 k hk, ← hex k, getCount_cons,
            if_neg (fun h' : k0 = k => hk h'.symm)]
      have hsum := ih _ hrest
      have hc0 : c0 = (h.filter fun r => decide (r.1 = k0)).length := by
        have := hex k0
        rw [getCount_cons, if_pos rfl] at this
        exact this
      have hsplit := length_filter_split (fun r : HRecord => decide (r.1 = k0)) h
      simp only [sumCounts, List.map_cons, List.sum_cons] at *
      omega

theorem minuteExact_decCount (m : CountMap) (chat : ChatIdHash) (t : Int)
    (h : List HRecord) (hm : MinuteExact m ((chat, t) :: h)) :
    MinuteExact (decCount m chat) h := by
  obtain ⟨hnd, hex, hpos⟩ := hm
  refine ⟨nodup_keys_decCount m chat hnd, fun k => ?_, pos_decCount m chat hpos⟩
  rw [getCount_decCount m chat k hnd]
  by_cases hk : k = chat
  · subst hk
    rw [if_pos rfl, hex k]
    simp [List.filter_cons]
  · rw [if_neg hk, hex k]
    have hck : ¬ chat = k := fun h' => hk h'.symm
    simp [List.filter_cons, hck]

theorem trim_minuteExact (minBack : Int) (h : List HRecord) (m : CountMap)
    (hm : MinuteExact m h) :
    MinuteExact (trim minBack h m).2 (trim minBack h m).1 := by
  induction h generalizing m with
  | nil => exact hm
  | cons r rest ih =>
      obtain ⟨chat, t⟩ := r
      by_cases ht : minBack ≤ t
      · simp only [trim, if_pos ht]
        exact hm
      · simp only [trim, if_neg ht]
        exact ih (decCount m chat) (minuteExact_decCount m chat t rest hm)

theorem minuteExact_incrCount_push (m : CountMap) (h : List HRecord)
    (chat : ChatIdHash) (now : Int) (hm : MinuteExact m h) :
    MinuteExact (incrCount m chat) (h ++ [(chat, now)]) := by
  obtain ⟨hnd, hex, hpos⟩ := hm
  refine ⟨nodup_keys_incrCount m chat hnd, fun k => ?_, pos_incrCount m chat hpos⟩
  rw [getCount_incrCount]
  by_cases hk : k = chat
  · subst hk
    rw [if_pos rfl, hex k]
    simp [List.filter_append]
  · rw [if_neg hk, hex k]
    have hck : ¬ chat = k := fun h' => hk h'.symm
    simp [List.filter_append, hck]

theorem admitWalk_minuteExact (L : Limits) (now : Int) (q : List QEntry) :
    ∀ (perSec perMin : CountMap) (history : List HRecord) (allowed : Nat),
      MinuteExact perMin history →
      MinuteExact (admitWalk L now perSec perMin history allowed q).perMin
        (admitWalk L now perSec perMin history allowed q).history := by
  induction q with
  | nil =>
      intro perSec perMin history allowed hm
      exact hm
  | cons e rest ih =>
      obtain ⟨chat, id⟩ := e
      intro perSec perMin history allowed hm
      simp only [admitWalk]
      by_cases he : limits_not_exceeded L perSec chat = true
      · rw [if_pos he]
        by_cases ha : allowed - 1 = 0
        · rw [if_pos ha]
          exact minuteExact_incrCount_push perMin history chat now hm
        · rw [if_neg ha]
          exact ih _ _ _ _ (minuteExact_incrCount_push perMin history chat now hm)
      · rw [if_neg he]
        exact ih _ _ _ _ hm

/-- C7: after the trim step the per-minute tally `M` is exact over the
history `H` — unique keys, `M[K]` equal to the number of records of `H`
with key `K` for every `K`, all stored counts strictly positive (zero
entries removed), and `sum(M.values()) = |H|` — and the admit walk
preserves exactness (it increments `M[K]` exactly when it appends a record
with key `K` to `H`), so the invariant also holds after the admit step. -/
theorem per_min_tally_exact_over_history (minBack now : Int) (L : Limits)
    (perSec : CountMap) (allowed : Nat) (q : List QEntry)
    (m : CountMap) (h : List HRecord) (hm : MinuteExact m h) :
    MinuteExact (trim minBack h m).2 (trim minBack h m).1 ∧
      sumCounts (trim minBack h m).2 = (trim minBack h m).1.length ∧
      MinuteExact
        (admitWalk L now perSec (trim minBack h m).2 (trim minBack h m).1
          allowed q).perMin
        (admitWalk L now perSec (trim minBack h m).2 (trim minBack h m).1
          allowed q).history ∧
      sumCounts
        (admitWalk L now perSec (trim minBack h m).2 (trim minBack h m).1
          allowed q).perMin =
        (admitWalk L now perSec (trim minBack h m).2 (trim minBack h m).1
          allowed q).history.length := by
  have h1 := trim_minuteExact minBack h m hm
  have h2 := admitWalk_minuteExact L now q perSec _ _ allowed h1
  exact ⟨h1, minuteExact_sumCounts _ _ h1, h2, minuteExact_sumCounts _ _ h2⟩

/-- Witness for C7: the exactness invariant instantiated at the initial
(empty) state, limits `(1, 20, 30)`, one backlog entry for chat 5 admitted
at `now = 1000`. -/
theorem per_min_tally_exact_over_history_witness :
    MinuteExact [] [] ∧
      (MinuteExact (trim (-59000) [] []).2 (trim (-59000) [] []).1 ∧
        sumCounts (trim (-59000) [] []).2 = (trim (-59000) [] []).1.length ∧
        MinuteExact
          (admitWalk ⟨1, 20, 30⟩ 1000 [] (trim (-59000) [] []).2
            (trim (-59000) [] []).1 30 [(ChatIdHash.Id 5, 0)]).perMin
          (admitWalk ⟨1, 20, 30⟩ 1000 [] (trim (-59000) [] []).2
            (trim (-59000) [] []).1 30 [(ChatIdHash.Id 5, 0)]).history ∧
        sumCounts
          (admitWalk ⟨1, 20, 30⟩ 1000 [] (trim (-59000) [] []).2
            (trim (-59000) [] []).1 30 [(ChatIdHash.Id 5, 0)]).perMin =
          (admitWalk ⟨1, 20, 30⟩ 1000 [] (trim (-59000) [] []).2
            (trim (-59000) [] []).1 30 [(ChatIdHash.Id 5, 0)]).history.length) :=
  have hm0 : MinuteExact [] [] :=
    ⟨List.nodup_nil, fun _ => rfl, fun p hp => absurd hp (List.not_mem_nil p)⟩
  ⟨hm0, per_min_tally_exact_over_history (-59000) 1000 ⟨1, 20, 30⟩ [] 30
    [(ChatIdHash.Id 5, 0)] [] [] hm0⟩

/-! ## Per-chat FIFO (C6) -/

theorem limits_not_exceeded_incrCount_ne (L : Limits) (perSec : CountMap)
    (chat k : ChatIdHash) (hne : chat ≠ k) :
    limits_not_exceeded L (incrCount perSec chat) k =
      limits_not_exceeded L perSec k := by
  simp only [limits_not_exceeded, getCount_incrCount,
    if_neg (fun h : k = chat => hne h.symm)]

theorem admitWalk_not_admitted_of_exceeded (L : Limits) (now : Int)
    (k : ChatIdHash) (q : List QEntry) :
    ∀ (perSec perMin : CountMap) (history : List HRecord) (allowed : Nat),
      limits_not_exceeded L perSec k = false →
      ((admitWalk L now perSec perMin history allowed q).admitted.filter
        (fun e => decide (e.1 = k))) = [] := by
  induction q with
  | nil =>
      intro perSec perMin history allowed hfalse
      rfl
  | cons e rest ih =>
      obtain ⟨chat, id⟩ := e
      intro perSec perMin history allowed hfalse
      simp only [admitWalk]
      by_cases he : limits_not_exceeded L perSec chat = true
      · have hne : chat ≠ k := by
          intro hEq
          rw [hEq] at he
          rw [he] at hfalse
          exact Bool.noConfusion hfalse
        rw [if_pos he]
        by_cases ha : allowed - 1 = 0
        · rw [if_pos ha]
          simp [List.filter_cons, hne]
        · rw [if_neg ha]
          have hf' : limits_not_exceeded L (incrCount perSec chat) k = false := by
            rw [limits_not_exceeded_incrCount_ne L perSec chat k hne]
            exact hfalse
          have hrec := ih (incrCount perSec chat) (incrCount perMin chat)
            (history ++ [(chat, now)]) (allowed - 1) hf'
          simpa [List.filter_cons, hne] using hrec
      · rw [if_neg he]
        exact ih perSec perMin history allowed hfalse

theorem admitWalk_keyFilter (L : Limits) (now : Int) (k : ChatIdHash)
    (q : List QEntry) :
    ∀ (perSec perMin : CountMap) (history : List HRecord) (allowed : Nat),
      ((admitWalk L now perSec perMin history allowed q).admitted.filter
          (fun e => decide (e.1 = k))) ++
        ((admitWalk L now perSec perMin history allowed q).remaining.filter
          (fun e => decide (e.1 = k))) =
        q.filter (fun e => decide (e.1 = k)) := by
  induction q with
  | nil =>
      intro perSec perMin history allowed
      rfl
  | cons e rest ih =>
      obtain ⟨chat, id⟩ := e
      intro perSec perMin history allowed
      simp only [admitWalk]
      by_cases he : limits_not_exceeded L perSec chat = true
      · rw [if_pos he]
        by_cases ha : allowed - 1 = 0
        · rw [if_pos ha]
          by_cases hk : chat = k
          · simp [List.filter_cons, hk]
          · simp [List.filter_cons, hk]
        · rw [if_neg ha]
          have hrec := ih (incrCount perSec chat) (incrCount perMin chat)
            (history ++ [(chat, now)]) (allowed - 1)
          by_cases hk : chat = k
          · simpa [List.filter_cons, hk] using hrec
          · simpa [List.filter_cons, hk] using hrec
      · rw [if_neg he]
        have hfilter := ih perSec perMin history allowed
        by_cases hk : chat = k
        · subst hk
          have hfe : limits_not_exceeded L perSec chat = false :=
            Bool.eq_false_iff.mpr he
          have hzero := admitWalk_not_admitted_of_exceeded L now chat rest
            perSec perMin history allowed hfe
          rw [hzero, List.nil_append] at hfilter
          rw [hzero, List.nil_append]
          simp [List.filter_cons, hfilter]
        · simpa [List.filter_cons, hk] using hfilter

theorem iterate_keyFilter (L : Limits) (now : Int) (arrivals : List QEntry)
    (st : WorkerState) (k : ChatIdHash) :
    ((iterate L now arrivals st).2.filter (fun e => decide (e.1 = k))) ++
      ((iterate L now arrivals st).1.queue.filter (fun e => decide (e.1 = k))) =
      (st.queue ++ arrivals).filter (fun e => decide (e.1 = k)) := by
  simp only [iterate]
  by_cases ha : L.messages_per_sec_overall -
      usedCount (now - SECOND) (trim (now - MINUTE) st.history st.perMin).1 = 0
  · rw [if_pos ha]
    rfl
  · rw [if_neg ha]
    exact admitWalk_keyFilter L now k (st.queue ++ arrivals) _ _ _ _

theorem map_snd_tag (now : Int) (l : List QEntry) :
    (l.map fun e => ((now, e) : Int × QEntry)).map Prod.snd = l := by
  induction l with
  | nil => rfl
  | cons e rest ih => simp [ih]

theorem run_keyFilter (L : Limits) (k : ChatIdHash)
    (evs : List (Int × List QEntry)) :
    ∀ st : WorkerState,
      (((run L evs st).2.map Prod.snd).filter (fun e => decide (e.1 = k))) ++
        ((run L evs st).1.queue.filter (fun e => decide (e.1 = k))) =
        (st.queue ++ (evs.map Prod.snd).flatten).filter (fun e => decide (e.1 = k)) := by
  induction evs with
  | nil =>
      intro st
      simp [run]
  | cons ev rest ih =>
      obtain ⟨now, arrivals⟩ := ev
      intro st
      have hstep := iterate_keyFilter L now arrivals st k
      have htail := ih (iterate L now arrivals st).1
      simp only [run, List.map_cons, List.flatten_cons, List.map_append,
        map_snd_tag, List.filter_append, List.append_assoc] at hstep htail ⊢
      rw [htail, ← List.append_assoc, hstep, List.append_assoc]

/-- C6: per-chat FIFO.  For every chat key `k`, over any sequence of worker
iterations from the initial state, the `k`-entries of the signalled output
followed by the `k`-entries still in the backlog equal exactly the
`k`-entries of the arrival stream in arrival order: same-key admissions are
signalled in enqueue order (the signalled `k`-subsequence is always a
prefix of the enqueued `k`-sequence), and the head-to-tail walk with
skipping never reorders two entries of the same chat key. -/
theorem per_chat_fifo_preserved (L : Limits) (evs : List (Int × List QEntry))
    (k : ChatIdHash) :
    (((run L evs initialState).2.map Prod.snd).filter (fun e => decide (e.1 = k))) ++
      ((run L evs initialState).1.queue.filter (fun e => decide (e.1 = k))) =
      ((evs.map Prod.snd).flatten).filter (fun e => decide (e.1 = k)) := by
  have h := run_keyFilter L k evs initialState
  simpa [initialState] using h
